import Mathlib

/-!
Shallow embedding of the statistical core of `src/moments.py`
(robust scatter estimate and covariance-weighted means), together with
theorems checking the natural-language specification against it.

Modelling conventions:
* numpy float arrays are modelled as `List ℚ`; arithmetic is exact.
* numpy exceptions (`IndexError` from out-of-bounds indexing,
  `LinAlgError("Singular matrix")` from `numpy.linalg.inv`) are modelled by
  the error type `NpError` through `Except`.
* the NaN value that `scipy.stats.scoreatpercentile` returns on an empty
  array (and which `rse` then propagates) is modelled as `Option.none`;
  no exception is raised in that case.
* the transcendental constant of `rse` lives in `ℝ`; the error function is
  modelled by its defining integral and `erfinv` as its function inverse.
-/

open Matrix

/-- Python `int()` truncation for a non-negative rational index value
(`i = int(idx)` in `scipy.stats._compute_qth_percentile`; the index there is
always ≥ 0). -/
def truncNat (q : ℚ) : ℕ := q.num.toNat / q.den

/-- scipy.stats._compute_qth_percentile on a sorted 1-D array with the default
`interpolation_method="fraction"`: `idx = per/100*(n-1)`; if `idx` is integral
the result is `sorted_[idx]`, otherwise the weighted average of
`sorted_[i]` and `sorted_[i+1]` (`i = int(idx)`) with weights
`(i+1-idx, idx-i)`, divided by the sum of the weights. -/
def computeQthPercentile (sorted_ : List ℚ) (per : ℚ) : ℚ :=
  let idx : ℚ := per / 100 * ((sorted_.length : ℚ) - 1)
  let i : ℕ := truncNat idx
  if (i : ℚ) = idx then sorted_.getD i 0
  else
    (sorted_.getD i 0 * ((i : ℚ) + 1 - idx) + sorted_.getD (i + 1) 0 * (idx - (i : ℚ))) /
      (((i : ℚ) + 1 - idx) + (idx - (i : ℚ)))

/-- scipy.stats.scoreatpercentile with its default arguments as called from
`rse` (`interpolation_method="fraction"`, `axis=None`, so the input is
flattened and sorted; `np.sort` is modelled by insertion sort). An empty
array gives NaN, modelled as `none`. Both call sites in moments.py pass
`per = 10` and `per = 90`, inside the checked range `[0, 100]`, so the
ValueError branch for an out-of-range `per` is not modelled. -/
def scoreatpercentile (a : List ℚ) (per : ℚ) : Option ℚ :=
  if a.isEmpty then none
  else some (computeQthPercentile (a.insertionSort (· ≤ ·)) per)

/-- The Gauss error function `erf x = 2/√π · ∫ t in 0..x, exp (-t²)`,
modelling `scipy.special.erf`. -/
noncomputable def erf (x : ℝ) : ℝ :=
  2 / Real.sqrt Real.pi * ∫ t in (0:ℝ)..x, Real.exp (-(t ^ 2))

/-- The inverse error function, modelling `scipy.special.erfinv`. -/
noncomputable def erfinv (y : ℝ) : ℝ := Function.invFun erf y

/-- moments.py line 17: `_rse_constant = 1.0 / (np.sqrt(2) * 2 * erfinv(0.8))`. -/
noncomputable def rse_constant : ℝ := 1.0 / (Real.sqrt 2 * 2 * erfinv 0.8)

/-- moments.py lines 20-36:
`rse(x) = _rse_constant * (scoreatpercentile(x, 90) - scoreatpercentile(x, 10))`.
A NaN percentile (empty input) propagates to a NaN result, modelled as `none`. -/
noncomputable def rse (x : List ℚ) : Option ℝ :=
  match scoreatpercentile x 90, scoreatpercentile x 10 with
  | some p90, some p10 => some (rse_constant * ((p90 : ℝ) - (p10 : ℝ)))
  | _, _ => none

/-- The p-th percentile of `x` as the specification words it: linear
interpolation between order statistics.  With `s` the sorted values of `x`
(the order statistics, 0-indexed) and `h = p/100 * (n-1)`, the percentile is
`s_⌊h⌋ + (h - ⌊h⌋) * (s_{⌊h⌋+1} - s_⌊h⌋)`. -/
def percentileSpec (x : List ℚ) (p : ℚ) : ℚ :=
  let s := x.insertionSort (· ≤ ·)
  let h : ℚ := p / 100 * ((x.length : ℚ) - 1)
  let i : ℕ := truncNat h
  s.getD i 0 + (h - (i : ℚ)) * (s.getD (i + 1) 0 - s.getD i 0)

/-- moments.py lines 39-59: `weighted_mean_oned`.  `w = np.sum(1/sx*sx)`
(elementwise `(1/sx_i)*sx_i`), `wx = np.sum(x/sx*sx)/w` (elementwise
`(x_i/sx_i)*sx_i`), returning `(wx, np.sqrt(1.0/w))`.  numpy broadcasting
requires `x` and `sx` to have the same shape; the elementwise products are
modelled by zipping the two lists. -/
noncomputable def weighted_mean_oned (x sx : List ℚ) : ℚ × ℝ :=
  let w : ℚ := (sx.map fun s => 1 / s * s).sum
  let wx : ℚ := ((x.zip sx).map fun p => p.1 / p.2 * p.2).sum / w
  (wx, Real.sqrt (1.0 / (w : ℝ)))

/-- The errors numpy can raise in `weighted_mean_twod`: `IndexError` from an
out-of-bounds array access, and `LinAlgError("Singular matrix")` from
`numpy.linalg.inv`.  (moments.py itself performs no input validation and
defines no error of its own.) -/
inductive NpError
  | indexOutOfBounds
  | singular
deriving DecidableEq

/-- Type of 2×2 rational matrices, the block size of `weighted_mean_twod`. -/
abbrev Mat2 := Matrix (Fin 2) (Fin 2) ℚ

/-- The determinant of a 2×2 matrix. -/
def det2 (m : Mat2) : ℚ := m 0 0 * m 1 1 - m 0 1 * m 1 0

/-- The inverse of a nonsingular 2×2 matrix by the adjugate formula. -/
def adjInv (m : Mat2) : Mat2 :=
  !![m 1 1 / det2 m, -(m 0 1) / det2 m; -(m 1 0) / det2 m, m 0 0 / det2 m]

/-- Model of `numpy.linalg.inv` on a 2×2 matrix: raises `LinAlgError("Singular
matrix")` exactly when the matrix is singular (in exact arithmetic the LU
factorization meets a zero pivot iff the determinant is zero), otherwise
returns the inverse. -/
def inv2 (m : Mat2) : Except NpError Mat2 :=
  if det2 m = 0 then .error .singular else .ok (adjInv m)

/-- moments.py lines 106-109: the per-point covariance matrix,
`cov = [[sx**2, sx*sy*cxy], [sx*sy*cxy, sy**2]]`. -/
def covMat (sxk syk ck : ℚ) : Mat2 :=
  !![sxk ^ 2, sxk * syk * ck; sxk * syk * ck, syk ^ 2]

/-- Iteration `j = 2k` of the loop in `weighted_mean_twod` (moments.py lines
100-110): read `x[k]` and `y[k]` for `vec_b`, build `cov` from `sx[k]`,
`sy[k]`, `cxy[k]` and invert it for the `cinv` block.  Each numpy access
raises `IndexError` when `k` is out of bounds (the reads happen before the
inversion, so a too-short companion array fails before `inv` can). -/
def loopStep (x y sx sy cxy : List ℚ) (k : ℕ) : Except NpError (ℚ × ℚ × Mat2) :=
  match x[k]?, y[k]?, sx[k]?, sy[k]?, cxy[k]? with
  | some xk, some yk, some sxk, some syk, some ck =>
    match inv2 (covMat sxk syk ck) with
    | .ok ci => .ok (xk, yk, ci)
    | .error e => .error e
  | _, _, _, _, _ => .error .indexOutOfBounds

/-- The loop `for j in range(0, 2*ndata, 2)` of `weighted_mean_twod`, run over
the point indices `k = j/2` in order; the first numpy error aborts the call. -/
def loopRun (x y sx sy cxy : List ℚ) : List ℕ → Except NpError (List (ℚ × ℚ × Mat2))
  | [] => .ok []
  | k :: ks =>
    match loopStep x y sx sy cxy k with
    | .error e => .error e
    | .ok t =>
      match loopRun x y sx sy cxy ks with
      | .error e => .error e
      | .ok ts => .ok (t :: ts)

/-- Entry `(j, i)` of the 2·ndata × 2 design matrix `mat_a` of
`weighted_mean_twod`: row `j = 2k` is `[1, 0]` and row `j = 2k+1` is `[0, 1]`. -/
def matA (j i : ℕ) : ℚ := if j % 2 = i then 1 else 0

/-- Position `⟨r % 2, _⟩ : Fin 2` of row index `r` inside its 2×2 block. -/
def fin2 (r : ℕ) : Fin 2 := ⟨r % 2, Nat.mod_lt r (by norm_num)⟩

/-- Entry `j` of the length-2·ndata observation vector `vec_b` of
`weighted_mean_twod`, interleaving `x_k` and `y_k`; the values are taken from
the per-point triples `(x_k, y_k, inv cov_k)` the loop produced. -/
def vecBEnt (ts : List (ℚ × ℚ × Mat2)) (j : ℕ) : ℚ :=
  if j % 2 = 0 then (ts.getD (j / 2) (0, 0, 0)).1 else (ts.getD (j / 2) (0, 0, 0)).2.1

/-- Entry `(j, j')` of the 2·ndata × 2·ndata block-diagonal matrix `cinv` of
`weighted_mean_twod`: block `k` on the diagonal is `inv(cov_k)` (taken from
the per-point triples the loop produced), and all other entries are the
zeros `cinv` was initialized with. -/
def cinvEnt (ts : List (ℚ × ℚ × Mat2)) (j j' : ℕ) : ℚ :=
  if j / 2 = j' / 2 then (ts.getD (j / 2) (0, 0, 0)).2.2 (fin2 j) (fin2 j') else 0

/-- moments.py line 111 inner products: the 2×2 normal matrix
`np.dot(mat_a.T, np.dot(cinv, mat_a))` of `weighted_mean_twod`, written with
the materialized full-size `mat_a` and `cinv` (entry functions over index
range `2*ndata`). -/
def normalMat (n : ℕ) (ts : List (ℚ × ℚ × Mat2)) : Mat2 :=
  Matrix.of fun p q =>
    ∑ j ∈ Finset.range (2 * n),
      matA j p.val * ∑ j' ∈ Finset.range (2 * n), cinvEnt ts j j' * matA j' q.val

/-- moments.py line 112 inner products: the 2-vector
`np.dot(mat_a.T, np.dot(cinv, vec_b))` of `weighted_mean_twod`, again with
the materialized full-size arrays. -/
def rhsVec (n : ℕ) (ts : List (ℚ × ℚ × Mat2)) : Fin 2 → ℚ := fun p =>
  ∑ j ∈ Finset.range (2 * n),
    matA j p.val * ∑ j' ∈ Finset.range (2 * n), cinvEnt ts j j' * vecBEnt ts j'

/-- moments.py lines 62-113: `weighted_mean_twod(x, y, sx, sy, cxy)`.
`ndata = x.size`; the loop fills `mat_a`, `vec_b` and the block-diagonal
`cinv` (first numpy error aborts); then
`covw = inv(mat_a.T @ cinv @ mat_a)` and
`(wx, wy) = covw @ (mat_a.T @ (cinv @ vec_b))`, returning `(wx, wy, covw)`. -/
def weighted_mean_twod (x y sx sy cxy : List ℚ) : Except NpError (ℚ × ℚ × Mat2) :=
  match loopRun x y sx sy cxy (List.range x.length) with
  | .error e => .error e
  | .ok ts =>
    match inv2 (normalMat x.length ts) with
    | .error e => .error e
    | .ok covw =>
      .ok ((covw *ᵥ rhsVec x.length ts) 0, (covw *ᵥ rhsVec x.length ts) 1, covw)

/-- Modelled from the spec (§4.2 complexity note and §9 design note, for the
refinement claim): the optimized implementation that never materializes the
2N×2N arrays and instead accumulates `sum_i (A_iᵀ · Cinv_i · A_i)` and
`sum_i (A_iᵀ · Cinv_i · b_i)` incrementally over the points — here each
`A_i` is the 2×2 identity, so a running 2×2 matrix `S` and 2-vector `v` are
folded over the same per-point data, and the final solve is unchanged:
`covw = inv S`, `(wx, wy) = covw · v`. -/
def weighted_mean_twod_opt (x y sx sy cxy : List ℚ) : Except NpError (ℚ × ℚ × Mat2) :=
  match loopRun x y sx sy cxy (List.range x.length) with
  | .error e => .error e
  | .ok ts =>
    let S : Mat2 := ts.foldl (fun acc t => acc + t.2.2) 0
    let v : Fin 2 → ℚ := ts.foldl (fun acc t => acc + t.2.2 *ᵥ ![t.1, t.2.1]) 0
    match inv2 S with
    | .error e => .error e
    | .ok covw => .ok ((covw *ᵥ v) 0, (covw *ᵥ v) 1, covw)

/-- The per-point triples `(x_k, y_k, inv cov_k)` that the loop of
`weighted_mean_twod` produces when every access is in bounds and every
per-point covariance matrix is invertible. -/
def tsOf (x y sx sy cxy : List ℚ) : List (ℚ × ℚ × Mat2) :=
  (List.range x.length).map fun k =>
    (x.getD k 0, y.getD k 0, adjInv (covMat (sx.getD k 0) (sy.getD k 0) (cxy.getD k 0)))

/-- The quadratic form `vᵀ m v` of a 2×2 matrix. -/
def quadForm (m : Mat2) (v : Fin 2 → ℚ) : ℚ :=
  v 0 * (m 0 0 * v 0 + m 0 1 * v 1) + v 1 * (m 1 0 * v 0 + m 1 1 * v 1)

/-- Positive definiteness of a 2×2 rational matrix: the quadratic form is
positive on every nonzero vector. -/
def PosDef2 (m : Mat2) : Prop := ∀ v : Fin 2 → ℚ, v ≠ 0 → 0 < quadForm m v

/-! ## Percentile layer: helper lemmas -/

/-- Insertion sort by `≤` sends permutation-equal lists to the same sorted list. -/
theorem insertionSort_eq_of_perm {x y : List ℚ} (h : x.Perm y) :
    x.insertionSort (· ≤ ·) = y.insertionSort (· ≤ ·) :=
  List.eq_of_perm_of_sorted
    (((List.perm_insertionSort _ x).trans h).trans (List.perm_insertionSort _ y).symm)
    (List.sorted_insertionSort _ x) (List.sorted_insertionSort _ y)

/-- The weighted-average form of scipy's fraction interpolation collapses to the
single linear-interpolation formula between consecutive order statistics. -/
theorem computeQthPercentile_eq_interp (s : List ℚ) (per : ℚ) :
    computeQthPercentile s per =
      s.getD (truncNat (per / 100 * ((s.length : ℚ) - 1))) 0 +
        (per / 100 * ((s.length : ℚ) - 1) -
            (truncNat (per / 100 * ((s.length : ℚ) - 1)) : ℚ)) *
          (s.getD (truncNat (per / 100 * ((s.length : ℚ) - 1)) + 1) 0 -
            s.getD (truncNat (per / 100 * ((s.length : ℚ) - 1))) 0) := by
  simp only [computeQthPercentile]
  set idx : ℚ := per / 100 * ((s.length : ℚ) - 1) with hidx
  set i : ℕ := truncNat idx with hi
  by_cases h : (i : ℚ) = idx
  · rw [if_pos h, ← h]
    ring
  · rw [if_neg h]
    have hden : ((i : ℚ) + 1 - idx) + (idx - (i : ℚ)) = 1 := by ring
    rw [hden, div_one]
    ring

/-- On a nonempty list, `scoreatpercentile` computes exactly the spec-side
percentile (linear interpolation between order statistics). -/
theorem scoreatpercentile_eq_percentileSpec (x : List ℚ) (per : ℚ) (h : x ≠ []) :
    scoreatpercentile x per = some (percentileSpec x per) := by
  have hne : x.isEmpty = false := by
    cases x with
    | nil => exact absurd rfl h
    | cons a l => rfl
  have hlen : (x.insertionSort (· ≤ ·)).length = x.length :=
    (List.perm_insertionSort _ x).length_eq
  simp only [scoreatpercentile, percentileSpec, hne, Bool.false_eq_true, if_false,
    Option.some.injEq]
  rw [computeQthPercentile_eq_interp, hlen]

/-- The function `scoreatpercentile` only looks at the multiset of values: it is invariant
under permutation of its input. -/
theorem scoreatpercentile_perm (per : ℚ) {x y : List ℚ} (h : x.Perm y) :
    scoreatpercentile x per = scoreatpercentile y per := by
  cases x with
  | nil =>
    have hy : y = [] := List.Perm.eq_nil h.symm
    rw [hy]
  | cons a l =>
    cases y with
    | nil => exact absurd (List.Perm.eq_nil h) (by simp)
    | cons b m =>
      simp only [scoreatpercentile, List.isEmpty_cons, Bool.false_eq_true, if_false,
        Option.some.injEq]
      rw [insertionSort_eq_of_perm h]

/-! ## Claim C1 -/

/-- C1: for every nonempty array `x`, `rse x` returns
`rse_constant * (P90 - P10)` where P10 and P90 are the 10th and 90th
percentiles of `x` computed by linear interpolation between order statistics
and `rse_constant` is the fixed constant `1 / (√2 * 2 * erfinv 0.8)` of
moments.py line 17. -/
theorem rse_eq_const_mul_percentile_diff (x : List ℚ) (h : x ≠ []) :
    rse x = some (rse_constant * ((percentileSpec x 90 : ℝ) - (percentileSpec x 10 : ℝ))) := by
  unfold rse
  rw [scoreatpercentile_eq_percentileSpec x 90 h, scoreatpercentile_eq_percentileSpec x 10 h]

/-- Witness for C1 at the concrete input `[1, 2, 3]`. -/
theorem rse_eq_const_mul_percentile_diff_witness :
    ([1, 2, 3] : List ℚ) ≠ [] ∧
      rse [1, 2, 3] =
        some (rse_constant *
          ((percentileSpec [1, 2, 3] 90 : ℝ) - (percentileSpec [1, 2, 3] 10 : ℝ))) :=
  ⟨by decide, rse_eq_const_mul_percentile_diff [1, 2, 3] (by decide)⟩

/-! ## Claim C9 -/

/-- C9: `rse` is invariant under any permutation of its input array. -/
theorem rse_perm_invariant (x y : List ℚ) (h : x.Perm y) : rse x = rse y := by
  unfold rse
  rw [scoreatpercentile_perm 90 h, scoreatpercentile_perm 10 h]

/-- Witness for C9 at the concrete permutation `[1, 2] ~ [2, 1]`. -/
theorem rse_perm_invariant_witness :
    ([1, 2] : List ℚ).Perm [2, 1] ∧ rse [1, 2] = rse [2, 1] :=
  ⟨by decide, rse_perm_invariant [1, 2] [2, 1] (by decide)⟩

/-! ## Claim C7 -/

/-- C7 counterexample: on the empty input, `rse` does not fail with an
InvalidInput error.  moments.py contains no validation at all:
`scoreatpercentile` returns NaN for an empty array (modelled as `none`) and
`rse` silently propagates it as its return value; no exception is raised. -/
theorem rse_empty_counterexample : rse ([] : List ℚ) = none := rfl

/-- C7 amended: `rse` returns NaN (no numeric estimate, modelled as `none`)
exactly on the empty input, and raises no error of any kind. -/
theorem rse_none_iff_empty (x : List ℚ) : rse x = none ↔ x = [] := by
  constructor
  · intro hnone
    by_contra hne
    unfold rse at hnone
    rw [scoreatpercentile_eq_percentileSpec x 90 hne,
      scoreatpercentile_eq_percentileSpec x 10 hne] at hnone
    exact Option.some_ne_none _ hnone
  · intro h
    rw [h]
    rfl

/-! ## Loop layer: helper lemmas about `loopStep` and `loopRun` -/

/-- In-bounds numpy indexing yields the list element. -/
theorem getElem?_eq_some_getD (l : List ℚ) (k : ℕ) (h : k < l.length) :
    l[k]? = some (l.getD k 0) := by
  rw [List.getElem?_eq_getElem h, List.getD_eq_getElem l 0 h]

/-- A loop iteration with all reads in bounds and an invertible per-point
covariance matrix succeeds and produces the point's data triple. -/
theorem loopStep_ok (x y sx sy cxy : List ℚ) (k : ℕ)
    (hx : k < x.length) (hy : k < y.length) (hsx : k < sx.length)
    (hsy : k < sy.length) (hc : k < cxy.length)
    (hdet : det2 (covMat (sx.getD k 0) (sy.getD k 0) (cxy.getD k 0)) ≠ 0) :
    loopStep x y sx sy cxy k =
      .ok (x.getD k 0, y.getD k 0,
        adjInv (covMat (sx.getD k 0) (sy.getD k 0) (cxy.getD k 0))) := by
  unfold loopStep
  rw [getElem?_eq_some_getD x k hx, getElem?_eq_some_getD y k hy,
    getElem?_eq_some_getD sx k hsx, getElem?_eq_some_getD sy k hsy,
    getElem?_eq_some_getD cxy k hc]
  simp only [inv2, if_neg hdet]

/-- A loop iteration with all reads in bounds but a singular per-point
covariance matrix fails with the numpy LinAlgError. -/
theorem loopStep_singular (x y sx sy cxy : List ℚ) (k : ℕ)
    (hx : k < x.length) (hy : k < y.length) (hsx : k < sx.length)
    (hsy : k < sy.length) (hc : k < cxy.length)
    (hdet : det2 (covMat (sx.getD k 0) (sy.getD k 0) (cxy.getD k 0)) = 0) :
    loopStep x y sx sy cxy k = .error .singular := by
  unfold loopStep
  rw [getElem?_eq_some_getD x k hx, getElem?_eq_some_getD y k hy,
    getElem?_eq_some_getD sx k hsx, getElem?_eq_some_getD sy k hsy,
    getElem?_eq_some_getD cxy k hc]
  simp only [inv2, if_pos hdet]

/-- A loop whose every iteration succeeds collects the per-point triples. -/
theorem loopRun_ok_of_forall (x y sx sy cxy : List ℚ) (ks : List ℕ)
    (f : ℕ → ℚ × ℚ × Mat2) (h : ∀ k ∈ ks, loopStep x y sx sy cxy k = .ok (f k)) :
    loopRun x y sx sy cxy ks = .ok (ks.map f) := by
  induction ks with
  | nil => rfl
  | cons k ks ih =>
    unfold loopRun
    rw [h k (by simp), ih (fun k hk => h k (by simp [hk]))]
    rfl

/-- When the companion arrays are at least as long as `x` and every per-point
covariance matrix is invertible, the loop succeeds and produces `tsOf`. -/
theorem loopRun_ok_tsOf (x y sx sy cxy : List ℚ)
    (hy : x.length ≤ y.length) (hsx : x.length ≤ sx.length)
    (hsy : x.length ≤ sy.length) (hc : x.length ≤ cxy.length)
    (hdet : ∀ k < x.length,
      det2 (covMat (sx.getD k 0) (sy.getD k 0) (cxy.getD k 0)) ≠ 0) :
    loopRun x y sx sy cxy (List.range x.length) = .ok (tsOf x y sx sy cxy) := by
  unfold tsOf
  apply loopRun_ok_of_forall
  intro k hk
  have hk' : k < x.length := List.mem_range.mp hk
  exact loopStep_ok x y sx sy cxy k hk' (by omega) (by omega) (by omega) (by omega)
    (hdet k hk')

/-- A successful loop has one triple per iteration. -/
theorem loopRun_length (x y sx sy cxy : List ℚ) (ks : List ℕ)
    (ts : List (ℚ × ℚ × Mat2)) (h : loopRun x y sx sy cxy ks = .ok ts) :
    ts.length = ks.length := by
  induction ks generalizing ts with
  | nil =>
    unfold loopRun at h
    cases h
    rfl
  | cons k ks ih =>
    unfold loopRun at h
    cases hs : loopStep x y sx sy cxy k with
    | error e => rw [hs] at h; cases h
    | ok t =>
      rw [hs] at h
      cases hr : loopRun x y sx sy cxy ks with
      | error e => rw [hr] at h; cases h
      | ok ts' =>
        rw [hr] at h
        cases h
        simp [ih ts' hr]

/-- A successful loop means every iteration succeeded. -/
theorem loopRun_ok_forall (x y sx sy cxy : List ℚ) (ks : List ℕ)
    (ts : List (ℚ × ℚ × Mat2)) (h : loopRun x y sx sy cxy ks = .ok ts) :
    ∀ k ∈ ks, ∃ t, loopStep x y sx sy cxy k = .ok t := by
  induction ks generalizing ts with
  | nil => intro k hk; cases hk
  | cons k' ks ih =>
    intro k hk
    unfold loopRun at h
    cases hs : loopStep x y sx sy cxy k' with
    | error e => rw [hs] at h; cases h
    | ok t =>
      rw [hs] at h
      cases hr : loopRun x y sx sy cxy ks with
      | error e => rw [hr] at h; cases h
      | ok ts' =>
        rcases List.mem_cons.mp hk with rfl | hk'
        · exact ⟨t, hs⟩
        · exact ih ts' hr k hk'

/-- With all reads in bounds, the only possible loop failure is a singular
per-point matrix. -/
theorem loopRun_ok_or_singular (x y sx sy cxy : List ℚ) (ks : List ℕ)
    (hb : ∀ k ∈ ks, k < x.length ∧ k < y.length ∧ k < sx.length ∧
      k < sy.length ∧ k < cxy.length) :
    (∃ ts, loopRun x y sx sy cxy ks = .ok ts) ∨
      loopRun x y sx sy cxy ks = .error .singular := by
  induction ks with
  | nil => exact Or.inl ⟨[], rfl⟩
  | cons k ks ih =>
    obtain ⟨hx, hy, hsx, hsy, hc⟩ := hb k (by simp)
    unfold loopRun
    cases hs : loopStep x y sx sy cxy k with
    | error e =>
      have he : e = NpError.singular := by
        by_cases hd : det2 (covMat (sx.getD k 0) (sy.getD k 0) (cxy.getD k 0)) = 0
        · rw [loopStep_singular x y sx sy cxy k hx hy hsx hsy hc hd] at hs
          cases hs
          rfl
        · rw [loopStep_ok x y sx sy cxy k hx hy hsx hsy hc hd] at hs
          cases hs
      rw [he]
      exact Or.inr rfl
    | ok t =>
      rcases ih (fun k hk => hb k (by simp [hk])) with ⟨ts, hts⟩ | herr
      · rw [hts]
        exact Or.inl ⟨t :: ts, rfl⟩
      · rw [herr]
        exact Or.inr rfl

/-! ## Sum layer: the block structure of the materialized arrays -/

/-- A sum over `range (2*n)` paired into its even/odd halves. -/
theorem sum_range_two_mul (n : ℕ) (f : ℕ → ℚ) :
    ∑ j ∈ Finset.range (2 * n), f j =
      ∑ k ∈ Finset.range n, (f (2 * k) + f (2 * k + 1)) := by
  induction n with
  | zero => simp
  | succ m ih =>
    have h2 : 2 * (m + 1) = 2 * m + 1 + 1 := by ring
    rw [h2, Finset.sum_range_succ, Finset.sum_range_succ, Finset.sum_range_succ, ih]
    ring

/-- Even row indices sit at position 0 of their block. -/
theorem fin2_two_mul (k : ℕ) : fin2 (2 * k) = 0 := by
  apply Fin.ext
  show 2 * k % 2 = 0
  omega

/-- Odd row indices sit at position 1 of their block. -/
theorem fin2_two_mul_add_one (k : ℕ) : fin2 (2 * k + 1) = 1 := by
  apply Fin.ext
  show (2 * k + 1) % 2 = 1
  omega

/-- The map `fin2` is a retraction of `Fin.val`. -/
theorem fin2_val (q : Fin 2) : fin2 q.val = q := by
  apply Fin.ext
  exact Nat.mod_eq_of_lt q.isLt

/-- Explicit form of a 2×2 matrix-vector product component. -/
theorem mulVec2_apply (m : Mat2) (v : Fin 2 → ℚ) (p : Fin 2) :
    (m *ᵥ v) p = m p 0 * v 0 + m p 1 * v 1 := by
  simp [Matrix.mulVec, Matrix.dotProduct, Fin.sum_univ_two]

/-- Row `j` of `cinv * mat_a`: only the diagonal block of `cinv` survives. -/
theorem cinv_matA_sum (ts : List (ℚ × ℚ × Mat2)) (n j : ℕ) (hj : j < 2 * n) (q : Fin 2) :
    ∑ j' ∈ Finset.range (2 * n), cinvEnt ts j j' * matA j' q.val =
      (ts.getD (j / 2) (0, 0, 0)).2.2 (fin2 j) q := by
  rw [sum_range_two_mul]
  have hterm : ∀ k : ℕ,
      cinvEnt ts j (2 * k) * matA (2 * k) q.val +
        cinvEnt ts j (2 * k + 1) * matA (2 * k + 1) q.val =
      if j / 2 = k then (ts.getD (j / 2) (0, 0, 0)).2.2 (fin2 j) q else 0 := by
    intro k
    unfold cinvEnt matA
    have h1 : 2 * k / 2 = k := by omega
    have h2 : (2 * k + 1) / 2 = k := by omega
    have h3 : 2 * k % 2 = 0 := by omega
    have h4 : (2 * k + 1) % 2 = 1 := by omega
    rw [h1, h2, h3, h4, fin2_two_mul, fin2_two_mul_add_one]
    by_cases hk : j / 2 = k
    · rw [if_pos hk, if_pos hk, if_pos hk]
      fin_cases q <;> simp
    · rw [if_neg hk, if_neg hk, if_neg hk]
      ring
  have hsum : ∑ k ∈ Finset.range n,
      (cinvEnt ts j (2 * k) * matA (2 * k) q.val +
        cinvEnt ts j (2 * k + 1) * matA (2 * k + 1) q.val) =
      ∑ k ∈ Finset.range n,
        (if j / 2 = k then (ts.getD (j / 2) (0, 0, 0)).2.2 (fin2 j) q else 0) :=
    Finset.sum_congr rfl fun k _ => hterm k
  rw [hsum, Finset.sum_ite_eq, if_pos (Finset.mem_range.mpr (by omega : j / 2 < n))]

/-- Row `j` of `cinv * vec_b`: only the diagonal block of `cinv` survives. -/
theorem cinv_vecB_sum (ts : List (ℚ × ℚ × Mat2)) (n j : ℕ) (hj : j < 2 * n) :
    ∑ j' ∈ Finset.range (2 * n), cinvEnt ts j j' * vecBEnt ts j' =
      ((ts.getD (j / 2) (0, 0, 0)).2.2 *ᵥ
        ![(ts.getD (j / 2) (0, 0, 0)).1, (ts.getD (j / 2) (0, 0, 0)).2.1]) (fin2 j) := by
  rw [sum_range_two_mul]
  have hterm : ∀ k : ℕ,
      cinvEnt ts j (2 * k) * vecBEnt ts (2 * k) +
        cinvEnt ts j (2 * k + 1) * vecBEnt ts (2 * k + 1) =
      if j / 2 = k then
        ((ts.getD (j / 2) (0, 0, 0)).2.2 *ᵥ
          ![(ts.getD k (0, 0, 0)).1, (ts.getD k (0, 0, 0)).2.1]) (fin2 j) else 0 := by
    intro k
    unfold cinvEnt vecBEnt
    have h1 : 2 * k / 2 = k := by omega
    have h2 : (2 * k + 1) / 2 = k := by omega
    have h3 : 2 * k % 2 = 0 := by omega
    have h4 : (2 * k + 1) % 2 = 1 := by omega
    rw [h1, h2, h3, h4, fin2_two_mul, fin2_two_mul_add_one]
    by_cases hk : j / 2 = k
    · rw [if_pos hk, if_pos hk, if_pos hk]
      rw [mulVec2_apply]
      simp
    · rw [if_neg hk, if_neg hk, if_neg hk]
      ring
  have hsum : ∑ k ∈ Finset.range n,
      (cinvEnt ts j (2 * k) * vecBEnt ts (2 * k) +
        cinvEnt ts j (2 * k + 1) * vecBEnt ts (2 * k + 1)) =
      ∑ k ∈ Finset.range n,
        (if j / 2 = k then
          ((ts.getD (j / 2) (0, 0, 0)).2.2 *ᵥ
            ![(ts.getD k (0, 0, 0)).1, (ts.getD k (0, 0, 0)).2.1]) (fin2 j) else 0) :=
    Finset.sum_congr rfl fun k _ => hterm k
  rw [hsum, Finset.sum_ite_eq, if_pos (Finset.mem_range.mpr (by omega : j / 2 < n))]

/-- The 2×2 normal matrix `mat_a.T * cinv * mat_a` is the sum of the
per-point inverse-covariance blocks. -/
theorem normalMat_apply (n : ℕ) (ts : List (ℚ × ℚ × Mat2)) (p q : Fin 2) :
    normalMat n ts p q = ∑ k ∈ Finset.range n, (ts.getD k (0, 0, 0)).2.2 p q := by
  unfold normalMat
  rw [Matrix.of_apply]
  have h1 : ∀ j ∈ Finset.range (2 * n),
      matA j p.val * (∑ j' ∈ Finset.range (2 * n), cinvEnt ts j j' * matA j' q.val) =
      matA j p.val * (ts.getD (j / 2) (0, 0, 0)).2.2 (fin2 j) q := fun j hj => by
    rw [cinv_matA_sum ts n j (Finset.mem_range.mp hj) q]
  rw [Finset.sum_congr rfl h1, sum_range_two_mul]
  apply Finset.sum_congr rfl
  intro k _
  unfold matA
  have h1' : 2 * k / 2 = k := by omega
  have h2' : (2 * k + 1) / 2 = k := by omega
  have h3' : 2 * k % 2 = 0 := by omega
  have h4' : (2 * k + 1) % 2 = 1 := by omega
  rw [h1', h2', h3', h4', fin2_two_mul, fin2_two_mul_add_one]
  fin_cases p <;> simp

/-- The 2-vector `mat_a.T * (cinv * vec_b)` is the sum of the per-point
products `inv(cov_k) * (x_k, y_k)`. -/
theorem rhsVec_apply (n : ℕ) (ts : List (ℚ × ℚ × Mat2)) (p : Fin 2) :
    rhsVec n ts p = ∑ k ∈ Finset.range n,
      ((ts.getD k (0, 0, 0)).2.2 *ᵥ
        ![(ts.getD k (0, 0, 0)).1, (ts.getD k (0, 0, 0)).2.1]) p := by
  unfold rhsVec
  have h1 : ∀ j ∈ Finset.range (2 * n),
      matA j p.val * (∑ j' ∈ Finset.range (2 * n), cinvEnt ts j j' * vecBEnt ts j') =
      matA j p.val * (((ts.getD (j / 2) (0, 0, 0)).2.2 *ᵥ
        ![(ts.getD (j / 2) (0, 0, 0)).1, (ts.getD (j / 2) (0, 0, 0)).2.1]) (fin2 j)) :=
    fun j hj => by rw [cinv_vecB_sum ts n j (Finset.mem_range.mp hj)]
  rw [Finset.sum_congr rfl h1, sum_range_two_mul]
  apply Finset.sum_congr rfl
  intro k _
  unfold matA
  have h1' : 2 * k / 2 = k := by omega
  have h2' : (2 * k + 1) / 2 = k := by omega
  have h3' : 2 * k % 2 = 0 := by omega
  have h4' : (2 * k + 1) % 2 = 1 := by omega
  rw [h1', h2', h3', h4', fin2_two_mul, fin2_two_mul_add_one]
  fin_cases p <;> simp

/-- Folding `+ g t` over a list from `c` adds the indexed sum of `g`. -/
theorem foldl_add_eq {M : Type} [AddCommMonoid M] (g : ℚ × ℚ × Mat2 → M)
    (ts : List (ℚ × ℚ × Mat2)) (c : M) :
    ts.foldl (fun acc t => acc + g t) c =
      c + ∑ k ∈ Finset.range ts.length, g (ts.getD k (0, 0, 0)) := by
  induction ts generalizing c with
  | nil => simp
  | cons t ts ih =>
    rw [List.foldl_cons, ih, List.length_cons, Finset.sum_range_succ']
    simp only [List.getD_cons_succ, List.getD_cons_zero]
    abel

/-! ## 2×2 algebra layer -/

/-- The determinant of a per-point covariance matrix. -/
theorem det2_covMat (sxk syk ck : ℚ) :
    det2 (covMat sxk syk ck) = sxk ^ 2 * syk ^ 2 * (1 - ck ^ 2) := by
  simp [det2, covMat]
  ring

/-- A per-point covariance matrix with positive uncertainties and a
correlation strictly inside (-1, 1) has positive determinant. -/
theorem det2_covMat_pos (sxk syk ck : ℚ) (hsx : 0 < sxk) (hsy : 0 < syk)
    (hc : |ck| < 1) : 0 < det2 (covMat sxk syk ck) := by
  rw [det2_covMat]
  rcases abs_lt.mp hc with ⟨h1, h2⟩
  have hcc : 0 < 1 - ck ^ 2 := by nlinarith
  positivity

/-- The covariance matrix is symmetric. -/
theorem covMat_symm (sxk syk ck : ℚ) :
    covMat sxk syk ck 1 0 = covMat sxk syk ck 0 1 := by
  simp [covMat]

/-- The adjugate inverse of a symmetric matrix is symmetric. -/
theorem adjInv_symm (m : Mat2) (h : m 0 1 = m 1 0) :
    adjInv m 0 1 = adjInv m 1 0 := by
  simp [adjInv]
  rw [h]


/-- Upper-left entry of the adjugate inverse. -/
theorem adjInv_00 (m : Mat2) : adjInv m 0 0 = m 1 1 / det2 m := by
  simp [adjInv]

/-- Upper-right entry of the adjugate inverse. -/
theorem adjInv_01 (m : Mat2) : adjInv m 0 1 = -(m 0 1) / det2 m := by
  simp [adjInv]

/-- Lower-left entry of the adjugate inverse. -/
theorem adjInv_10 (m : Mat2) : adjInv m 1 0 = -(m 1 0) / det2 m := by
  simp [adjInv]

/-- Lower-right entry of the adjugate inverse. -/
theorem adjInv_11 (m : Mat2) : adjInv m 1 1 = m 0 0 / det2 m := by
  simp [adjInv]

/-- Entrywise extensionality for 2×2 matrices. -/
theorem mat2_ext (A B : Mat2) (h00 : A 0 0 = B 0 0) (h01 : A 0 1 = B 0 1)
    (h10 : A 1 0 = B 1 0) (h11 : A 1 1 = B 1 1) : A = B := by
  ext p q
  fin_cases p <;> fin_cases q
  · exact h00
  · exact h01
  · exact h10
  · exact h11

/-- The determinant of the adjugate inverse is the inverse determinant. -/
theorem det2_adjInv (m : Mat2) (h : det2 m ≠ 0) :
    det2 (adjInv m) = (det2 m)⁻¹ := by
  have hd : det2 m = m 0 0 * m 1 1 - m 0 1 * m 1 0 := rfl
  show adjInv m 0 0 * adjInv m 1 1 - adjInv m 0 1 * adjInv m 1 0 = (det2 m)⁻¹
  rw [adjInv_00, adjInv_11, adjInv_01, adjInv_10]
  have hnum : m 1 1 / det2 m * (m 0 0 / det2 m) - -m 0 1 / det2 m * (-m 1 0 / det2 m) =
      (m 0 0 * m 1 1 - m 0 1 * m 1 0) / (det2 m * det2 m) := by
    ring
  rw [hnum, ← hd, div_eq_iff (mul_ne_zero h h), ← mul_assoc, inv_mul_cancel₀ h, one_mul]

/-- Inverting twice gives the matrix back. -/
theorem adjInv_adjInv (m : Mat2) (h : det2 m ≠ 0) : adjInv (adjInv m) = m := by
  have hD : det2 (adjInv m) = (det2 m)⁻¹ := det2_adjInv m h
  apply mat2_ext
  · rw [adjInv_00, adjInv_11, hD]
    field_simp
  · rw [adjInv_01, adjInv_01, hD]
    field_simp
  · rw [adjInv_10, adjInv_10, hD]
    field_simp
  · rw [adjInv_11, adjInv_00, hD]
    field_simp

/-- Identity `m * (m⁻¹ * v) = v` for a nonsingular 2×2 matrix. -/
theorem mulVec_adjInv (m : Mat2) (h : det2 m ≠ 0) (v : Fin 2 → ℚ) :
    m *ᵥ (adjInv m *ᵥ v) = v := by
  have hd : det2 m = m 0 0 * m 1 1 - m 0 1 * m 1 0 := rfl
  have h' : m 0 0 * m 1 1 - m 0 1 * m 1 0 ≠ 0 := by
    rw [← hd]
    exact h
  funext p
  rw [mulVec2_apply, mulVec2_apply, mulVec2_apply, adjInv_00, adjInv_01, adjInv_10,
    adjInv_11]
  fin_cases p <;>
    · field_simp
      rw [hd]
      ring

/-- The inverse of a diagonal covariance matrix (zero correlation) is the
diagonal matrix of the inverse variances. -/
theorem adjInv_covMat_diag (sxk syk : ℚ) (hsx : sxk ≠ 0) (hsy : syk ≠ 0) :
    adjInv (covMat sxk syk 0) = !![1 / sxk ^ 2, 0; 0, 1 / syk ^ 2] := by
  have hdet : det2 (covMat sxk syk 0) = sxk ^ 2 * syk ^ 2 := by
    rw [det2_covMat]
    ring
  apply mat2_ext
  · rw [adjInv_00, hdet]
    have h1 : covMat sxk syk 0 1 1 = syk ^ 2 := by simp [covMat]
    have h2 : (!![1 / sxk ^ 2, 0; 0, 1 / syk ^ 2] : Mat2) 0 0 = 1 / sxk ^ 2 := by simp
    rw [h1, h2]
    rw [div_eq_div_iff (by positivity) (by positivity)]
    ring
  · rw [adjInv_01, hdet]
    have h1 : covMat sxk syk 0 0 1 = 0 := by simp [covMat]
    rw [h1]
    simp
  · rw [adjInv_10, hdet]
    have h1 : covMat sxk syk 0 1 0 = 0 := by simp [covMat]
    rw [h1]
    simp
  · rw [adjInv_11, hdet]
    have h1 : covMat sxk syk 0 0 0 = sxk ^ 2 := by simp [covMat]
    have h2 : (!![1 / sxk ^ 2, 0; 0, 1 / syk ^ 2] : Mat2) 1 1 = 1 / syk ^ 2 := by simp
    rw [h1, h2]
    rw [div_eq_div_iff (by positivity) (by positivity)]
    ring

/-- A nonzero 2-vector has a nonzero component. -/
theorem vec2_ne_zero (v : Fin 2 → ℚ) (h : v ≠ 0) : v 0 ≠ 0 ∨ v 1 ≠ 0 := by
  by_contra hc
  push_neg at hc
  apply h
  funext i
  fin_cases i
  · simpa using hc.1
  · simpa using hc.2

/-- Sylvester's criterion for symmetric 2×2 matrices, sufficiency. -/
theorem posdef2_of_crit (m : Mat2) (hsym : m 1 0 = m 0 1)
    (ha : 0 < m 0 0) (hd : 0 < det2 m) : PosDef2 m := by
  have hdet : 0 < m 0 0 * m 1 1 - m 0 1 * m 0 1 := by
    have h' : det2 m = m 0 0 * m 1 1 - m 0 1 * m 1 0 := rfl
    rw [h', hsym] at hd
    exact hd
  intro v hv
  unfold quadForm
  rw [hsym]
  by_cases h1 : v 1 = 0
  · have h0 : v 0 ≠ 0 := by
      rcases vec2_ne_zero v hv with h | h
      · exact h
      · exact absurd h1 h
    have h02 : 0 < v 0 ^ 2 := (sq_nonneg _).lt_of_ne (Ne.symm (pow_ne_zero 2 h0))
    rw [h1]
    nlinarith [mul_pos ha h02]
  · have hv1 : 0 < v 1 ^ 2 := (sq_nonneg _).lt_of_ne (Ne.symm (pow_ne_zero 2 h1))
    nlinarith [sq_nonneg (m 0 0 * v 0 + m 0 1 * v 1), mul_pos hdet hv1, ha,
      mul_pos ha hv1]

/-- A positive-definite matrix has a positive upper-left entry. -/
theorem posdef2_00_pos (m : Mat2) (h : PosDef2 m) : 0 < m 0 0 := by
  have hv : (![1, 0] : Fin 2 → ℚ) ≠ 0 := by
    intro hz
    have := congrFun hz 0
    simp at this
  have := h ![1, 0] hv
  unfold quadForm at this
  simpa using this

/-- A positive-definite matrix has a positive lower-right entry. -/
theorem posdef2_11_pos (m : Mat2) (h : PosDef2 m) : 0 < m 1 1 := by
  have hv : (![0, 1] : Fin 2 → ℚ) ≠ 0 := by
    intro hz
    have := congrFun hz 1
    simp at this
  have := h ![0, 1] hv
  unfold quadForm at this
  simpa using this

/-- A symmetric positive-definite matrix has a positive determinant. -/
theorem posdef2_det_pos (m : Mat2) (hsym : m 1 0 = m 0 1) (h : PosDef2 m) :
    0 < det2 m := by
  have ha : 0 < m 0 0 := posdef2_00_pos m h
  have hv : (![m 0 1, -(m 0 0)] : Fin 2 → ℚ) ≠ 0 := by
    intro hz
    have h1 := congrFun hz 1
    simp at h1
    exact absurd h1 (ne_of_gt ha)
  have hq := h ![m 0 1, -(m 0 0)] hv
  unfold quadForm at hq
  simp only [Matrix.cons_val_zero, Matrix.cons_val_one, Matrix.head_cons] at hq
  rw [hsym] at hq
  have hd : det2 m = m 0 0 * m 1 1 - m 0 1 * m 1 0 := rfl
  rw [hd, hsym]
  nlinarith [hq, ha]

/-- The adjugate inverse of a symmetric positive-definite matrix is positive
definite. -/
theorem posdef2_adjInv (m : Mat2) (hsym : m 1 0 = m 0 1) (h : PosDef2 m) :
    PosDef2 (adjInv m) := by
  have hb : 0 < m 1 1 := posdef2_11_pos m h
  have hd : 0 < det2 m := posdef2_det_pos m hsym h
  apply posdef2_of_crit
  · exact (adjInv_symm m hsym.symm).symm
  · rw [adjInv_00]
    exact div_pos hb hd
  · rw [det2_adjInv m (ne_of_gt hd)]
    exact inv_pos.mpr hd

/-- The covariance matrix of a valid point is positive definite. -/
theorem posdef2_covMat (sxk syk ck : ℚ) (hsx : 0 < sxk) (hsy : 0 < syk)
    (hc : |ck| < 1) : PosDef2 (covMat sxk syk ck) := by
  apply posdef2_of_crit
  · exact covMat_symm sxk syk ck
  · have : covMat sxk syk ck 0 0 = sxk ^ 2 := by simp [covMat]
    rw [this]
    positivity
  · exact det2_covMat_pos sxk syk ck hsx hsy hc

/-- The quadratic form is additive in the matrix over a finite sum. -/
theorem quadForm_sum (s : Finset ℕ) (f : ℕ → Mat2) (v : Fin 2 → ℚ) :
    quadForm (∑ k ∈ s, f k) v = ∑ k ∈ s, quadForm (f k) v := by
  unfold quadForm
  simp only [Matrix.sum_apply, Finset.sum_mul, Finset.mul_sum, ← Finset.sum_add_distrib]

/-- A nonempty sum of positive-definite matrices is positive definite. -/
theorem posdef2_sum_range (n : ℕ) (f : ℕ → Mat2) (hn : 0 < n)
    (h : ∀ k < n, PosDef2 (f k)) : PosDef2 (∑ k ∈ Finset.range n, f k) := by
  intro v hv
  rw [quadForm_sum]
  apply Finset.sum_pos
  · intro k hk
    exact h k (Finset.mem_range.mp hk) v hv
  · exact Finset.nonempty_range_iff.mpr (by omega)

/-! ## Bridging `weighted_mean_twod` to its solve stage -/

/-- Value of `tsOf` at an in-range index. -/
theorem tsOf_getD (x y sx sy cxy : List ℚ) (k : ℕ) (hk : k < x.length) :
    (tsOf x y sx sy cxy).getD k (0, 0, 0) =
      (x.getD k 0, y.getD k 0,
        adjInv (covMat (sx.getD k 0) (sy.getD k 0) (cxy.getD k 0))) := by
  unfold tsOf
  have hlen : k < (((List.range x.length).map fun k =>
      ((x.getD k 0, y.getD k 0,
        adjInv (covMat (sx.getD k 0) (sy.getD k 0) (cxy.getD k 0))) :
          ℚ × ℚ × Mat2))).length := by
    simpa using hk
  rw [List.getD_eq_getElem _ _ hlen]
  simp

/-- A loop error aborts `weighted_mean_twod` with the same error. -/
theorem wmt_loopRun_error (x y sx sy cxy : List ℚ) (e : NpError)
    (h : loopRun x y sx sy cxy (List.range x.length) = .error e) :
    weighted_mean_twod x y sx sy cxy = .error e := by
  unfold weighted_mean_twod
  rw [h]

/-- After a successful loop, `weighted_mean_twod` reduces to the final 2×2
solve on the normal matrix. -/
theorem wmt_loopRun_ok (x y sx sy cxy : List ℚ) (ts : List (ℚ × ℚ × Mat2))
    (h : loopRun x y sx sy cxy (List.range x.length) = .ok ts) :
    weighted_mean_twod x y sx sy cxy =
      if det2 (normalMat x.length ts) = 0 then .error .singular
      else .ok ((adjInv (normalMat x.length ts) *ᵥ rhsVec x.length ts) 0,
        (adjInv (normalMat x.length ts) *ᵥ rhsVec x.length ts) 1,
        adjInv (normalMat x.length ts)) := by
  unfold weighted_mean_twod
  rw [h]
  show (match inv2 (normalMat x.length ts) with
    | .error e => (.error e : Except NpError (ℚ × ℚ × Mat2))
    | .ok covw => .ok ((covw *ᵥ rhsVec x.length ts) 0,
        (covw *ᵥ rhsVec x.length ts) 1, covw)) = _
  unfold inv2
  by_cases hd : det2 (normalMat x.length ts) = 0
  · rw [if_pos hd, if_pos hd]
  · rw [if_neg hd, if_neg hd]

/-- A loop error aborts the optimized variant with the same error. -/
theorem wmt_opt_loopRun_error (x y sx sy cxy : List ℚ) (e : NpError)
    (h : loopRun x y sx sy cxy (List.range x.length) = .error e) :
    weighted_mean_twod_opt x y sx sy cxy = .error e := by
  unfold weighted_mean_twod_opt
  rw [h]

/-- After a successful loop, the optimized variant reduces to the final 2×2
solve on the accumulated sums. -/
theorem wmt_opt_loopRun_ok (x y sx sy cxy : List ℚ) (ts : List (ℚ × ℚ × Mat2))
    (h : loopRun x y sx sy cxy (List.range x.length) = .ok ts) :
    weighted_mean_twod_opt x y sx sy cxy =
      if det2 (ts.foldl (fun acc t => acc + t.2.2) 0) = 0 then .error .singular
      else .ok
        ((adjInv (ts.foldl (fun acc t => acc + t.2.2) 0) *ᵥ
            ts.foldl (fun acc t => acc + t.2.2 *ᵥ ![t.1, t.2.1]) 0) 0,
          (adjInv (ts.foldl (fun acc t => acc + t.2.2) 0) *ᵥ
            ts.foldl (fun acc t => acc + t.2.2 *ᵥ ![t.1, t.2.1]) 0) 1,
          adjInv (ts.foldl (fun acc t => acc + t.2.2) 0)) := by
  unfold weighted_mean_twod_opt
  rw [h]
  show (match inv2 (ts.foldl (fun acc (t : ℚ × ℚ × Mat2) => acc + t.2.2) 0) with
    | .error e => (.error e : Except NpError (ℚ × ℚ × Mat2))
    | .ok covw => .ok
        ((covw *ᵥ ts.foldl (fun acc (t : ℚ × ℚ × Mat2) => acc + t.2.2 *ᵥ ![t.1, t.2.1]) 0) 0,
        (covw *ᵥ ts.foldl (fun acc (t : ℚ × ℚ × Mat2) => acc + t.2.2 *ᵥ ![t.1, t.2.1]) 0) 1,
        covw)) = _
  unfold inv2
  by_cases hd : det2 (ts.foldl (fun acc t => acc + t.2.2) 0) = 0
  · rw [if_pos hd, if_pos hd]
  · rw [if_neg hd, if_neg hd]

/-- The accumulated 2×2 running matrix equals the materialized normal matrix. -/
theorem foldl_eq_normalMat (n : ℕ) (ts : List (ℚ × ℚ × Mat2))
    (hlen : ts.length = n) :
    ts.foldl (fun acc t => acc + t.2.2) 0 = normalMat n ts := by
  rw [foldl_add_eq (fun t => t.2.2) ts 0, zero_add]
  apply mat2_ext <;>
    · simp only [Matrix.sum_apply]
      rw [normalMat_apply, hlen]

/-- The accumulated running 2-vector equals the materialized right-hand side. -/
theorem foldl_eq_rhsVec (n : ℕ) (ts : List (ℚ × ℚ × Mat2))
    (hlen : ts.length = n) :
    ts.foldl (fun acc t => acc + t.2.2 *ᵥ ![t.1, t.2.1]) 0 = rhsVec n ts := by
  rw [foldl_add_eq (fun t => t.2.2 *ᵥ ![t.1, t.2.1]) ts 0, zero_add]
  funext p
  rw [Finset.sum_apply, rhsVec_apply, hlen]

/-! ## Claim C5 -/

/-- C5: for every input — in particular every valid one — the optimized
implementation that accumulates `sum_i (A_iᵀ Cinv_i A_i)` and
`sum_i (A_iᵀ Cinv_i b_i)` point by point returns exactly the same
`(wx, wy, covw)` (or the same error) as the reference construction that
materializes the full 2N×2N block-diagonal precision matrix, the 2N×2
design matrix and the 2N observation vector. -/
theorem wmt_opt_eq (x y sx sy cxy : List ℚ) :
    weighted_mean_twod x y sx sy cxy = weighted_mean_twod_opt x y sx sy cxy := by
  cases hr : loopRun x y sx sy cxy (List.range x.length) with
  | error e =>
    rw [wmt_loopRun_error x y sx sy cxy e hr, wmt_opt_loopRun_error x y sx sy cxy e hr]
  | ok ts =>
    have hlen : ts.length = x.length := by
      rw [loopRun_length x y sx sy cxy _ ts hr, List.length_range]
    rw [wmt_loopRun_ok x y sx sy cxy ts hr, wmt_opt_loopRun_ok x y sx sy cxy ts hr,
      foldl_eq_normalMat x.length ts hlen, foldl_eq_rhsVec x.length ts hlen]

/-! ## Claim C8 -/

/-- C8: on five equal-length input arrays in which `sx` contains a zero,
`weighted_mean_twod` fails with the numpy SingularMatrix error (the
per-point covariance matrix with `sx[k] = 0` is exactly singular, and
`numpy.linalg.inv` raises on it); it never silently returns a NaN result. -/
theorem wmt_sx_zero_singular (x y sx sy cxy : List ℚ)
    (hy : y.length = x.length) (hsx : sx.length = x.length)
    (hsy : sy.length = x.length) (hc : cxy.length = x.length)
    (k : ℕ) (hk : k < x.length) (hzero : sx.getD k 0 = 0) :
    weighted_mean_twod x y sx sy cxy = .error .singular := by
  have hb : ∀ j ∈ List.range x.length, j < x.length ∧ j < y.length ∧
      j < sx.length ∧ j < sy.length ∧ j < cxy.length := by
    intro j hj
    have := List.mem_range.mp hj
    omega
  rcases loopRun_ok_or_singular x y sx sy cxy (List.range x.length) hb with ⟨ts, hts⟩ | herr
  · exfalso
    obtain ⟨t, ht⟩ := loopRun_ok_forall x y sx sy cxy _ ts hts k (List.mem_range.mpr hk)
    have hdz : det2 (covMat (sx.getD k 0) (sy.getD k 0) (cxy.getD k 0)) = 0 := by
      rw [det2_covMat, hzero]
      ring
    rw [loopStep_singular x y sx sy cxy k hk (by omega) (by omega) (by omega) (by omega)
      hdz] at ht
    cases ht
  · exact wmt_loopRun_error x y sx sy cxy _ herr

/-- Witness for C8 at the concrete input `x=[1], y=[1], sx=[0], sy=[1], cxy=[0]`. -/
theorem wmt_sx_zero_singular_witness :
    (0 : ℕ) < ([1] : List ℚ).length ∧ ([0] : List ℚ).getD 0 0 = 0 ∧
      weighted_mean_twod [1] [1] [0] [1] [0] = .error .singular :=
  ⟨by decide, by decide,
    wmt_sx_zero_singular [1] [1] [0] [1] [0] rfl rfl rfl rfl 0 (by decide) (by decide)⟩

/-! ## Claim C2 -/

/-- C2: with all correlations zero and positive uncertainties on equal-length
arrays with N ≥ 1 points, `weighted_mean_twod` returns the classic
inverse-variance-weighted means
`wx = (∑ x_k/sx_k²)/(∑ 1/sx_k²)` and `wy = (∑ y_k/sy_k²)/(∑ 1/sy_k²)`. -/
theorem wmt_cxy_zero_invvar (x y sx sy cxy : List ℚ) (hn : 1 ≤ x.length)
    (hy : y.length = x.length) (hsx : sx.length = x.length)
    (hsy : sy.length = x.length) (hc : cxy.length = x.length)
    (hcz : ∀ k < x.length, cxy.getD k 0 = 0)
    (hsxp : ∀ k < x.length, 0 < sx.getD k 0)
    (hsyp : ∀ k < x.length, 0 < sy.getD k 0) :
    ∃ covw : Mat2, weighted_mean_twod x y sx sy cxy =
      .ok ((∑ k ∈ Finset.range x.length, x.getD k 0 / sx.getD k 0 ^ 2) /
             (∑ k ∈ Finset.range x.length, 1 / sx.getD k 0 ^ 2),
           (∑ k ∈ Finset.range x.length, y.getD k 0 / sy.getD k 0 ^ 2) /
             (∑ k ∈ Finset.range x.length, 1 / sy.getD k 0 ^ 2),
           covw) := by
  have hdet : ∀ k < x.length,
      det2 (covMat (sx.getD k 0) (sy.getD k 0) (cxy.getD k 0)) ≠ 0 := by
    intro k hk
    apply ne_of_gt
    rw [hcz k hk]
    exact det2_covMat_pos _ _ 0 (hsxp k hk) (hsyp k hk) (by norm_num)
  have hloop := loopRun_ok_tsOf x y sx sy cxy (by omega) (by omega) (by omega) (by omega) hdet
  set ts := tsOf x y sx sy cxy with hts
  have hB : ∀ k < x.length, (ts.getD k (0, 0, 0)).2.2 =
      !![1 / sx.getD k 0 ^ 2, 0; 0, 1 / sy.getD k 0 ^ 2] := by
    intro k hk
    rw [hts, tsOf_getD x y sx sy cxy k hk]
    show adjInv (covMat (sx.getD k 0) (sy.getD k 0) (cxy.getD k 0)) = _
    rw [hcz k hk]
    exact adjInv_covMat_diag _ _ (ne_of_gt (hsxp k hk)) (ne_of_gt (hsyp k hk))
  have hTx : ∀ k < x.length, (ts.getD k (0, 0, 0)).1 = x.getD k 0 := by
    intro k hk
    rw [hts, tsOf_getD x y sx sy cxy k hk]
  have hTy : ∀ k < x.length, (ts.getD k (0, 0, 0)).2.1 = y.getD k 0 := by
    intro k hk
    rw [hts, tsOf_getD x y sx sy cxy k hk]
  have hS00 : normalMat x.length ts 0 0 =
      ∑ k ∈ Finset.range x.length, 1 / sx.getD k 0 ^ 2 := by
    rw [normalMat_apply]
    refine Finset.sum_congr rfl fun k hk => ?_
    rw [hB k (Finset.mem_range.mp hk)]
    simp
  have hS11 : normalMat x.length ts 1 1 =
      ∑ k ∈ Finset.range x.length, 1 / sy.getD k 0 ^ 2 := by
    rw [normalMat_apply]
    refine Finset.sum_congr rfl fun k hk => ?_
    rw [hB k (Finset.mem_range.mp hk)]
    simp
  have hS01 : normalMat x.length ts 0 1 = 0 := by
    rw [normalMat_apply]
    refine Finset.sum_eq_zero fun k hk => ?_
    rw [hB k (Finset.mem_range.mp hk)]
    simp
  have hS10 : normalMat x.length ts 1 0 = 0 := by
    rw [normalMat_apply]
    refine Finset.sum_eq_zero fun k hk => ?_
    rw [hB k (Finset.mem_range.mp hk)]
    simp
  have hSx : 0 < ∑ k ∈ Finset.range x.length, 1 / sx.getD k 0 ^ 2 := by
    refine Finset.sum_pos (fun k hk => ?_) (Finset.nonempty_range_iff.mpr (by omega))
    have := hsxp k (Finset.mem_range.mp hk)
    positivity
  have hSy : 0 < ∑ k ∈ Finset.range x.length, 1 / sy.getD k 0 ^ 2 := by
    refine Finset.sum_pos (fun k hk => ?_) (Finset.nonempty_range_iff.mpr (by omega))
    have := hsyp k (Finset.mem_range.mp hk)
    positivity
  have hSxne : (∑ k ∈ Finset.range x.length, 1 / sx.getD k 0 ^ 2) ≠ 0 := ne_of_gt hSx
  have hSyne : (∑ k ∈ Finset.range x.length, 1 / sy.getD k 0 ^ 2) ≠ 0 := ne_of_gt hSy
  have hdetS : det2 (normalMat x.length ts) =
      (∑ k ∈ Finset.range x.length, 1 / sx.getD k 0 ^ 2) *
        (∑ k ∈ Finset.range x.length, 1 / sy.getD k 0 ^ 2) := by
    have hd : det2 (normalMat x.length ts) =
        normalMat x.length ts 0 0 * normalMat x.length ts 1 1 -
          normalMat x.length ts 0 1 * normalMat x.length ts 1 0 := rfl
    rw [hd, hS00, hS11, hS01, hS10]
    ring
  have hdne : det2 (normalMat x.length ts) ≠ 0 := by
    rw [hdetS]
    exact ne_of_gt (mul_pos hSx hSy)
  have hv0 : rhsVec x.length ts 0 =
      ∑ k ∈ Finset.range x.length, x.getD k 0 / sx.getD k 0 ^ 2 := by
    rw [rhsVec_apply]
    refine Finset.sum_congr rfl fun k hk => ?_
    have hk' := Finset.mem_range.mp hk
    rw [mulVec2_apply, hB k hk', hTx k hk', hTy k hk']
    have e00 : (!![1 / sx.getD k 0 ^ 2, 0; 0, 1 / sy.getD k 0 ^ 2] : Mat2) 0 0 =
        1 / sx.getD k 0 ^ 2 := by simp
    have e01 : (!![1 / sx.getD k 0 ^ 2, 0; 0, 1 / sy.getD k 0 ^ 2] : Mat2) 0 1 = 0 := by
      simp
    rw [e00, e01, Matrix.cons_val_zero, Matrix.cons_val_one, Matrix.head_cons]
    ring
  have hv1 : rhsVec x.length ts 1 =
      ∑ k ∈ Finset.range x.length, y.getD k 0 / sy.getD k 0 ^ 2 := by
    rw [rhsVec_apply]
    refine Finset.sum_congr rfl fun k hk => ?_
    have hk' := Finset.mem_range.mp hk
    rw [mulVec2_apply, hB k hk', hTx k hk', hTy k hk']
    have e10 : (!![1 / sx.getD k 0 ^ 2, 0; 0, 1 / sy.getD k 0 ^ 2] : Mat2) 1 0 = 0 := by
      simp
    have e11 : (!![1 / sx.getD k 0 ^ 2, 0; 0, 1 / sy.getD k 0 ^ 2] : Mat2) 1 1 =
        1 / sy.getD k 0 ^ 2 := by simp
    rw [e10, e11, Matrix.cons_val_zero, Matrix.cons_val_one, Matrix.head_cons]
    ring
  refine ⟨adjInv (normalMat x.length ts), ?_⟩
  rw [wmt_loopRun_ok x y sx sy cxy ts hloop, if_neg hdne]
  have h1 : (adjInv (normalMat x.length ts) *ᵥ rhsVec x.length ts) 0 =
      (∑ k ∈ Finset.range x.length, x.getD k 0 / sx.getD k 0 ^ 2) /
        (∑ k ∈ Finset.range x.length, 1 / sx.getD k 0 ^ 2) := by
    rw [mulVec2_apply, adjInv_00, adjInv_01, hdetS, hS11, hS01, hv0, hv1]
    rw [neg_zero, zero_div, zero_mul, add_zero, div_mul_eq_mul_div,
      div_eq_div_iff (mul_ne_zero hSxne hSyne) hSxne]
    ring
  have h2 : (adjInv (normalMat x.length ts) *ᵥ rhsVec x.length ts) 1 =
      (∑ k ∈ Finset.range x.length, y.getD k 0 / sy.getD k 0 ^ 2) /
        (∑ k ∈ Finset.range x.length, 1 / sy.getD k 0 ^ 2) := by
    rw [mulVec2_apply, adjInv_10, adjInv_11, hdetS, hS00, hS10, hv0, hv1]
    rw [neg_zero, zero_div, zero_mul, zero_add, div_mul_eq_mul_div,
      div_eq_div_iff (mul_ne_zero hSxne hSyne) hSyne]
    ring
  rw [h1, h2]

/-- Witness for C2 at the concrete input `x=[3], y=[5], sx=[1], sy=[2], cxy=[0]`. -/
theorem wmt_cxy_zero_invvar_witness :
    1 ≤ ([3] : List ℚ).length ∧
      (∃ covw : Mat2, weighted_mean_twod [3] [5] [1] [2] [0] =
        .ok ((∑ k ∈ Finset.range ([3] : List ℚ).length,
                ([3] : List ℚ).getD k 0 / ([1] : List ℚ).getD k 0 ^ 2) /
              (∑ k ∈ Finset.range ([3] : List ℚ).length,
                1 / ([1] : List ℚ).getD k 0 ^ 2),
             (∑ k ∈ Finset.range ([3] : List ℚ).length,
                ([5] : List ℚ).getD k 0 / ([2] : List ℚ).getD k 0 ^ 2) /
              (∑ k ∈ Finset.range ([3] : List ℚ).length,
                1 / ([2] : List ℚ).getD k 0 ^ 2),
             covw)) :=
  ⟨by decide,
    wmt_cxy_zero_invvar [3] [5] [1] [2] [0] (by decide) rfl rfl rfl rfl
      (fun k hk => by
        have h0 : k = 0 := Nat.lt_one_iff.mp (by simpa using hk)
        subst h0
        rfl)
      (fun k hk => by
        have h0 : k = 0 := Nat.lt_one_iff.mp (by simpa using hk)
        subst h0
        norm_num)
      (fun k hk => by
        have h0 : k = 0 := Nat.lt_one_iff.mp (by simpa using hk)
        subst h0
        norm_num)⟩

/-! ## Claim C3 -/

/-- C3: on a single point with `sx0 > 0`, `sy0 > 0` and `|c0| < 1`,
`weighted_mean_twod` returns the point itself, and `covw` equal to that
point's own covariance matrix
`[[sx0², c0·sx0·sy0], [c0·sx0·sy0, sy0²]]` — here exactly, since the
embedding computes in exact rational arithmetic. -/
theorem wmt_single (x0 y0 sx0 sy0 c0 : ℚ) (hsx : 0 < sx0) (hsy : 0 < sy0)
    (hc : |c0| < 1) :
    weighted_mean_twod [x0] [y0] [sx0] [sy0] [c0] = .ok (x0, y0, covMat sx0 sy0 c0) := by
  have hdp : 0 < det2 (covMat sx0 sy0 c0) := det2_covMat_pos sx0 sy0 c0 hsx hsy hc
  have hdet : ∀ k < ([x0] : List ℚ).length,
      det2 (covMat (([sx0] : List ℚ).getD k 0) (([sy0] : List ℚ).getD k 0)
        (([c0] : List ℚ).getD k 0)) ≠ 0 := by
    intro k hk
    have h0 : k = 0 := Nat.lt_one_iff.mp (by simpa using hk)
    subst h0
    exact ne_of_gt hdp
  have hloop := loopRun_ok_tsOf [x0] [y0] [sx0] [sy0] [c0]
    (by simp) (by simp) (by simp) (by simp) hdet
  set ts := tsOf [x0] [y0] [sx0] [sy0] [c0] with hts
  have hS : normalMat ([x0] : List ℚ).length ts = adjInv (covMat sx0 sy0 c0) := by
    apply mat2_ext <;>
      · rw [normalMat_apply]
        simp only [List.length_singleton, Finset.sum_range_one]
        rw [hts, tsOf_getD [x0] [y0] [sx0] [sy0] [c0] 0 (by simp)]
        simp
  have hv : rhsVec ([x0] : List ℚ).length ts = adjInv (covMat sx0 sy0 c0) *ᵥ ![x0, y0] := by
    funext p
    rw [rhsVec_apply]
    simp only [List.length_singleton, Finset.sum_range_one]
    rw [hts, tsOf_getD [x0] [y0] [sx0] [sy0] [c0] 0 (by simp)]
    simp
  have hdSne : det2 (normalMat ([x0] : List ℚ).length ts) ≠ 0 := by
    rw [hS, det2_adjInv _ (ne_of_gt hdp)]
    exact inv_ne_zero (ne_of_gt hdp)
  rw [wmt_loopRun_ok [x0] [y0] [sx0] [sy0] [c0] ts hloop, if_neg hdSne, hS, hv]
  rw [adjInv_adjInv _ (ne_of_gt hdp), mulVec_adjInv _ (ne_of_gt hdp)]
  rw [Matrix.cons_val_zero, Matrix.cons_val_one, Matrix.head_cons]

/-- Witness for C3 at the concrete input `x=[2], y=[3], sx=[1], sy=[1], cxy=[0]`. -/
theorem wmt_single_witness :
    (0 : ℚ) < 1 ∧ |(0 : ℚ)| < 1 ∧
      weighted_mean_twod [2] [3] [1] [1] [0] = .ok (2, 3, covMat 1 1 0) :=
  ⟨by norm_num, by norm_num,
    wmt_single 2 3 1 1 0 (by norm_num) (by norm_num) (by norm_num)⟩

/-! ## Claim C4 -/

/-- C4: on equal-length arrays of N ≥ 1 points whose per-point covariance
matrices are all positive definite (`sx_k > 0`, `sy_k > 0`, `|cxy_k| < 1`),
`weighted_mean_twod` succeeds and the returned `covw` is symmetric
(`covw 0 1 = covw 1 0`) and positive definite. -/
theorem wmt_covw_posdef (x y sx sy cxy : List ℚ) (hn : 1 ≤ x.length)
    (hy : y.length = x.length) (hsx : sx.length = x.length)
    (hsy : sy.length = x.length) (hc : cxy.length = x.length)
    (hsxp : ∀ k < x.length, 0 < sx.getD k 0)
    (hsyp : ∀ k < x.length, 0 < sy.getD k 0)
    (hcc : ∀ k < x.length, |cxy.getD k 0| < 1) :
    ∃ wx wy covw, weighted_mean_twod x y sx sy cxy = .ok (wx, wy, covw) ∧
      covw 0 1 = covw 1 0 ∧ PosDef2 covw := by
  have hdet : ∀ k < x.length,
      det2 (covMat (sx.getD k 0) (sy.getD k 0) (cxy.getD k 0)) ≠ 0 := fun k hk =>
    ne_of_gt (det2_covMat_pos _ _ _ (hsxp k hk) (hsyp k hk) (hcc k hk))
  have hloop := loopRun_ok_tsOf x y sx sy cxy (by omega) (by omega) (by omega) (by omega) hdet
  set ts := tsOf x y sx sy cxy with hts
  have hSsum : normalMat x.length ts = ∑ k ∈ Finset.range x.length,
      adjInv (covMat (sx.getD k 0) (sy.getD k 0) (cxy.getD k 0)) := by
    apply mat2_ext <;>
      · rw [normalMat_apply, Matrix.sum_apply]
        refine Finset.sum_congr rfl fun k hk => ?_
        rw [hts, tsOf_getD x y sx sy cxy k (Finset.mem_range.mp hk)]
  have hPD : PosDef2 (normalMat x.length ts) := by
    rw [hSsum]
    apply posdef2_sum_range _ _ (by omega)
    intro k hk
    exact posdef2_adjInv _ (covMat_symm _ _ _)
      (posdef2_covMat _ _ _ (hsxp k hk) (hsyp k hk) (hcc k hk))
  have hsymS : normalMat x.length ts 1 0 = normalMat x.length ts 0 1 := by
    rw [hSsum, Matrix.sum_apply, Matrix.sum_apply]
    refine Finset.sum_congr rfl fun k hk => ?_
    exact (adjInv_symm _ (covMat_symm _ _ _).symm).symm
  have hdetS : 0 < det2 (normalMat x.length ts) := posdef2_det_pos _ hsymS hPD
  refine ⟨(adjInv (normalMat x.length ts) *ᵥ rhsVec x.length ts) 0,
    (adjInv (normalMat x.length ts) *ᵥ rhsVec x.length ts) 1,
    adjInv (normalMat x.length ts), ?_, ?_, ?_⟩
  · rw [wmt_loopRun_ok x y sx sy cxy ts hloop, if_neg (ne_of_gt hdetS)]
  · exact adjInv_symm _ hsymS.symm
  · exact posdef2_adjInv _ hsymS hPD

/-- Witness for C4 at the concrete input `x=[1], y=[1], sx=[1], sy=[1], cxy=[0]`. -/
theorem wmt_covw_posdef_witness :
    1 ≤ ([1] : List ℚ).length ∧
      (∀ k < ([1] : List ℚ).length, |([0] : List ℚ).getD k 0| < 1) ∧
      (∃ wx wy covw, weighted_mean_twod [1] [1] [1] [1] [0] = .ok (wx, wy, covw) ∧
        covw 0 1 = covw 1 0 ∧ PosDef2 covw) :=
  ⟨by decide,
    fun k hk => by
      have h0 : k = 0 := Nat.lt_one_iff.mp (by simpa using hk)
      subst h0
      norm_num,
    wmt_covw_posdef [1] [1] [1] [1] [0] (by decide) rfl rfl rfl rfl
      (fun k hk => by
        have h0 : k = 0 := Nat.lt_one_iff.mp (by simpa using hk)
        subst h0
        norm_num)
      (fun k hk => by
        have h0 : k = 0 := Nat.lt_one_iff.mp (by simpa using hk)
        subst h0
        norm_num)
      (fun k hk => by
        have h0 : k = 0 := Nat.lt_one_iff.mp (by simpa using hk)
        subst h0
        norm_num)⟩

/-! ## Claim C6 -/

/-- On a single-point `x` whose first per-point covariance matrix is
invertible, `weighted_mean_twod` returns that point and its covariance
matrix no matter how long `y` is and regardless of the signs or domains of
`sx0`, `sy0`, `c0` — the code reads only index 0 and never validates. -/
theorem wmt_first_point (x0 y0 sx0 sy0 c0 : ℚ) (ytail : List ℚ)
    (h : det2 (covMat sx0 sy0 c0) ≠ 0) :
    weighted_mean_twod [x0] (y0 :: ytail) [sx0] [sy0] [c0] =
      .ok (x0, y0, covMat sx0 sy0 c0) := by
  have hdet : ∀ k < ([x0] : List ℚ).length,
      det2 (covMat (([sx0] : List ℚ).getD k 0) (([sy0] : List ℚ).getD k 0)
        (([c0] : List ℚ).getD k 0)) ≠ 0 := by
    intro k hk
    have h0 : k = 0 := Nat.lt_one_iff.mp (by simpa using hk)
    subst h0
    exact h
  have hloop := loopRun_ok_tsOf [x0] (y0 :: ytail) [sx0] [sy0] [c0]
    (by simp) (by simp) (by simp) (by simp) hdet
  set ts := tsOf [x0] (y0 :: ytail) [sx0] [sy0] [c0] with hts
  have hS : normalMat ([x0] : List ℚ).length ts = adjInv (covMat sx0 sy0 c0) := by
    apply mat2_ext <;>
      · rw [normalMat_apply]
        simp only [List.length_singleton, Finset.sum_range_one]
        rw [hts, tsOf_getD [x0] (y0 :: ytail) [sx0] [sy0] [c0] 0 (by simp)]
        simp
  have hv : rhsVec ([x0] : List ℚ).length ts =
      adjInv (covMat sx0 sy0 c0) *ᵥ ![x0, y0] := by
    funext p
    rw [rhsVec_apply]
    simp only [List.length_singleton, Finset.sum_range_one]
    rw [hts, tsOf_getD [x0] (y0 :: ytail) [sx0] [sy0] [c0] 0 (by simp)]
    simp
  have hdSne : det2 (normalMat ([x0] : List ℚ).length ts) ≠ 0 := by
    rw [hS, det2_adjInv _ h]
    exact inv_ne_zero h
  rw [wmt_loopRun_ok [x0] (y0 :: ytail) [sx0] [sy0] [c0] ts hloop, if_neg hdSne, hS, hv]
  rw [adjInv_adjInv _ h, mulVec_adjInv _ h]
  rw [Matrix.cons_val_zero, Matrix.cons_val_one, Matrix.head_cons]

/-- C6 counterexample: the input `x=[0], y=[0,5], sx=[-1], sy=[1], cxy=[3]`
has mismatched array lengths, a negative `sx` entry and `|cxy| > 1`, yet
`weighted_mean_twod` silently returns a numeric result instead of failing
fast with an InvalidInput error — moments.py contains no validation. -/
theorem wmt_invalid_input_counterexample :
    weighted_mean_twod [0] [0, 5] [-1] [1] [3] = .ok (0, 0, covMat (-1) 1 3) :=
  wmt_first_point 0 0 (-1) 1 3 [5] (by
    rw [det2_covMat]
    norm_num)

/-- C6 amended: `weighted_mean_twod` performs no input validation and knows
no InvalidInput error.  Whenever `y`, `sx`, `sy`, `cxy` are each at least as
long as `x` (equal or longer — extra elements are silently ignored) and
every per-point covariance matrix and the accumulated normal matrix are
nonsingular, it returns a numeric result, even for out-of-domain values
such as `sx_k ≤ 0` or `|cxy_k| > 1`.  Its only failures are an IndexError
when a companion array is shorter than `x` and a SingularMatrix error when
a matrix inversion meets an exactly singular matrix. -/
theorem wmt_no_validation (x y sx sy cxy : List ℚ)
    (hy : x.length ≤ y.length) (hsx : x.length ≤ sx.length)
    (hsy : x.length ≤ sy.length) (hc : x.length ≤ cxy.length)
    (hdet : ∀ k < x.length,
      det2 (covMat (sx.getD k 0) (sy.getD k 0) (cxy.getD k 0)) ≠ 0)
    (hagg : det2 (normalMat x.length (tsOf x y sx sy cxy)) ≠ 0) :
    ∃ r, weighted_mean_twod x y sx sy cxy = .ok r := by
  have hloop := loopRun_ok_tsOf x y sx sy cxy hy hsx hsy hc hdet
  refine ⟨((adjInv (normalMat x.length (tsOf x y sx sy cxy)) *ᵥ
      rhsVec x.length (tsOf x y sx sy cxy)) 0,
    (adjInv (normalMat x.length (tsOf x y sx sy cxy)) *ᵥ
      rhsVec x.length (tsOf x y sx sy cxy)) 1,
    adjInv (normalMat x.length (tsOf x y sx sy cxy))), ?_⟩
  rw [wmt_loopRun_ok x y sx sy cxy (tsOf x y sx sy cxy) hloop, if_neg hagg]

/-- Witness for the amended C6 at the concrete invalid input
`x=[0], y=[0,5], sx=[-1], sy=[1], cxy=[3]`. -/
theorem wmt_no_validation_witness :
    ([0] : List ℚ).length ≤ ([0, 5] : List ℚ).length ∧
      (∀ k < ([0] : List ℚ).length,
        det2 (covMat (([-1] : List ℚ).getD k 0) (([1] : List ℚ).getD k 0)
          (([3] : List ℚ).getD k 0)) ≠ 0) ∧
      det2 (normalMat ([0] : List ℚ).length (tsOf [0] [0, 5] [-1] [1] [3])) ≠ 0 ∧
      (∃ r, weighted_mean_twod [0] [0, 5] [-1] [1] [3] = .ok r) := by
  have hdet : ∀ k < ([0] : List ℚ).length,
      det2 (covMat (([-1] : List ℚ).getD k 0) (([1] : List ℚ).getD k 0)
        (([3] : List ℚ).getD k 0)) ≠ 0 := by
    intro k hk
    have h0 : k = 0 := Nat.lt_one_iff.mp (by simpa using hk)
    subst h0
    simp only [List.getD_cons_zero]
    rw [det2_covMat]
    norm_num
  have hagg : det2 (normalMat ([0] : List ℚ).length (tsOf [0] [0, 5] [-1] [1] [3])) ≠ 0 := by
    have hB : normalMat ([0] : List ℚ).length (tsOf [0] [0, 5] [-1] [1] [3]) =
        adjInv (covMat (-1) 1 3) := by
      apply mat2_ext <;>
        · rw [normalMat_apply]
          simp only [List.length_singleton, Finset.sum_range_one]
          rw [tsOf_getD [0] [0, 5] [-1] [1] [3] 0 (by simp)]
          simp
    rw [hB, det2_adjInv _ (by rw [det2_covMat]; norm_num)]
    exact inv_ne_zero (by rw [det2_covMat]; norm_num)
  exact ⟨by decide, hdet, hagg,
    wmt_no_validation [0] [0, 5] [-1] [1] [3] (by decide) (by decide) (by decide) (by decide)
      hdet hagg⟩

/-! ## Claim C10 -/

/-- The sum `np.sum(1/sx*sx)` over nonzero entries counts the entries: every
elementwise term `(1/s)·s` is 1. -/
theorem sum_one_div_mul (l : List ℚ) (h : ∀ s ∈ l, s ≠ 0) :
    (l.map fun s => 1 / s * s).sum = (l.length : ℚ) := by
  induction l with
  | nil => simp
  | cons s l ih =>
    simp only [List.map_cons, List.sum_cons, List.length_cons]
    rw [ih (fun t ht => h t (by simp [ht])), one_div, inv_mul_cancel₀ (h s (by simp))]
    push_cast
    ring

/-- The sum `np.sum(x/sx*sx)` over nonzero uncertainties is the plain sum of `x`:
every elementwise term `(x_i/s_i)·s_i` is `x_i`. -/
theorem sum_div_mul (x : List ℚ) : ∀ (sx : List ℚ), x.length = sx.length →
    (∀ s ∈ sx, s ≠ 0) → ((x.zip sx).map fun p => p.1 / p.2 * p.2).sum = x.sum := by
  induction x with
  | nil =>
    intro sx _ _
    simp
  | cons a l ih =>
    intro sx hlen h
    cases sx with
    | nil => simp at hlen
    | cons s m =>
      simp only [List.zip_cons_cons, List.map_cons, List.sum_cons]
      rw [ih m (by simpa using hlen) (fun t ht => h t (by simp [ht])),
        div_mul_cancel₀ a (h s (by simp))]

/-- C10: on a nonempty `x` and same-length `sx` with all entries nonzero,
`weighted_mean_oned` ignores the uncertainties entirely: because the code
multiplies instead of dividing by `sx*sx`, the weights all collapse to 1,
so it returns the unweighted arithmetic mean of `x` and `sqrt(1/N)` as the
uncertainty — independent of the values in `sx`. -/
theorem weighted_mean_oned_unweighted (x sx : List ℚ) (hlen : x.length = sx.length)
    (hne : x ≠ []) (hnz : ∀ s ∈ sx, s ≠ 0) :
    weighted_mean_oned x sx =
      (x.sum / (x.length : ℚ), Real.sqrt (1.0 / (x.length : ℝ))) := by
  simp only [weighted_mean_oned]
  rw [sum_one_div_mul sx hnz, sum_div_mul x sx hlen hnz, hlen]
  congr 1

/-- Witness for C10 at the concrete input `x=[1,2], sx=[4,5]`. -/
theorem weighted_mean_oned_unweighted_witness :
    ([1, 2] : List ℚ).length = ([4, 5] : List ℚ).length ∧ ([1, 2] : List ℚ) ≠ [] ∧
      (∀ s ∈ ([4, 5] : List ℚ), s ≠ 0) ∧
      weighted_mean_oned [1, 2] [4, 5] =
        (([1, 2] : List ℚ).sum / (([1, 2] : List ℚ).length : ℚ),
          Real.sqrt (1.0 / (([1, 2] : List ℚ).length : ℝ))) :=
  ⟨rfl, by decide, by decide,
    weighted_mean_oned_unweighted [1, 2] [4, 5] rfl (by decide) (by decide)⟩
